import Mathlib

/-!
Verification of the pool-connection orchestrator (`PoolManager.cpp`).

The C++ source is embedded shallowly:

* `diffToDisplay` (file-static helper): modelled over `ℚ`; every concrete
  input verified below is exactly representable as an IEEE double and all
  intermediate divisions by 1000 are exact, so the rational model agrees
  with the C++ `double` computation on those inputs.  The `while` loop is
  embedded with explicit fuel (`scaleLoop`); the guard `i < 4` bounds the
  iteration count by 4, and a saturation lemma shows any fuel ≥ 4 gives
  the same result, so the fuel is not a truncation.
* The hashrate encoding done inline in `PoolManager::workLoop` (lines
  244-256): `toCompactBigEndian` / `toHex` are the libdevcore helpers the
  code calls (minimal big-endian bytes, at least one byte; lowercase hex,
  two characters per byte), and `encodeHashrate` is the strip-one-leading
  zero / pad-to-64 / prefix-"0x" sequence of the source.
* The `onWorkReceived` handler: state `PMState` (the `m_headers` deque,
  front = oldest, and `m_lastBoundary`); 256-bit job headers and
  boundaries are modelled as `ℕ` (only equality is used).  `trimHist` is
  the `while (size > 4) pop_front()` loop, structurally recursive.
* The `onSolutionFound` handler: a pure function from the client
  connection state to the list of actions the handler performs.
* `PoolManager::workLoop`, `stop`, `start`: a state record `LoopState`
  (the PoolManager fields the loop reads and writes, plus the
  client/farm observations `connected`, `pending`, `mining` which the
  loop only reads — they are written by external callbacks, so in a run
  where every connection attempt fails they stay `false`), and a
  per-tick transition `tick : LoopState → LoopState × List Act`
  producing the externally visible actions.  `run` iterates `tick`
  while the running flag holds, with an explicit tick count.
  `graceWait` is the countdown wait of lines 203-205; it is given the
  running flag as a parameter so that theorems can express whether the
  wait depends on it — the body, like the source, ignores it.
-/

/-- The unit table `k` of `diffToDisplay`. -/
def diffUnits : List String :=
  ["hashes", "kilohashes", "megahashes", "gigahashes", "terahashes", "petahashes"]

/-- The scaling `while` loop of `diffToDisplay`:
`while (diff > 1000.0 && i < sizeof(k)/sizeof(char*) - 2) { i++; diff /= 1000; }`,
embedded with fuel (first argument).  The guard `i < 4` stops the loop after at
most 4 iterations from `i = 0`, so fuel 4 is exact (see `scaleLoop_saturate`). -/
def scaleLoop : ℕ → ℚ → ℕ → ℚ × ℕ
  | 0, d, i => (d, i)
  | f + 1, d, i =>
    if 1000 < d ∧ i < diffUnits.length - 2 then scaleLoop f (d / 1000) (i + 1) else (d, i)

/-- Two-digit zero padding for the fractional part. -/
def padTwo (n : ℕ) : String := if n < 10 then "0" ++ toString n else toString n

/-- `fixed << setprecision(2)` rendering of a non-negative value: round to the
nearest hundredth and print with exactly two fractional digits.  (C++ rounds
ties to even; no tie arises at any input verified below.) -/
def fixed2 (q : ℚ) : String :=
  let n : ℕ := (round (q * 100)).toNat
  toString (n / 100) ++ "." ++ padTwo (n % 100)

/-- `diffToDisplay` from `PoolManager.cpp` lines 8-20. -/
def diffToDisplay (diff : ℚ) : String :=
  let p := scaleLoop (diffUnits.length - 2) diff 0
  fixed2 p.1 ++ " " ++ diffUnits.getD p.2 ""

/-- Lowercase hexadecimal digit character. -/
def hexChar (n : ℕ) : Char := if n < 10 then Char.ofNat (48 + n) else Char.ofNat (87 + n)

/-- Numeric value of a lowercase hexadecimal digit character. -/
def hexVal (c : Char) : ℕ := if 97 ≤ c.toNat then c.toNat - 87 else c.toNat - 48

/-- Big-endian base-256 digits of `n` (empty for 0), with fuel; fuel `n`
suffices since `n / 256 < n` for `n > 0`. -/
def beBytesAux : ℕ → ℕ → List ℕ
  | 0, _ => []
  | _ + 1, 0 => []
  | f + 1, n + 1 => beBytesAux f ((n + 1) / 256) ++ [(n + 1) % 256]

/-- libdevcore `toCompactBigEndian(val, 1)`: minimal big-endian byte encoding,
at least one byte (so 0 encodes as the single byte 0). -/
def toCompactBigEndian (n : ℕ) : List ℕ :=
  if n = 0 then [0] else beBytesAux n n

/-- libdevcore `toHex` on a byte string: two lowercase hex characters per
byte, no prefix. -/
def toHex (bs : List ℕ) : List Char :=
  (bs.map fun b => [hexChar (b / 16), hexChar (b % 16)]).flatten

/-- Value of a big-endian hex digit string. -/
def fromHexDigits (l : List Char) : ℕ := l.foldl (fun a c => 16 * a + hexVal c) 0

/-- Value of a big-endian byte string. -/
def beValue (bs : List ℕ) : ℕ := bs.foldl (fun a b => 256 * a + b) 0

/-- The hashrate encoding of `PoolManager::workLoop` lines 246-254:
`h = toHex(toCompactBigEndian(rate, 1))`;
`res = h[0] != '0' ? h : h.substr(1)`;
pad with `'0'` to width 64 (`setw(64) << setfill('0')`), prefix `"0x"`. -/
def encodeHashrate (r : ℕ) : String :=
  let h := toHex (toCompactBigEndian r)
  let res := if h.headD '0' ≠ '0' then h else h.tail
  String.mk ('0' :: 'x' :: (List.replicate (64 - res.length) '0' ++ res))

/-- State read and written by the `onWorkReceived` handler: the `m_headers`
deque (front = oldest) and `m_lastBoundary`.  Job headers and boundaries are
256-bit hashes in the source; only equality on them is used, so they are
modelled as `ℕ`. -/
structure PMState where
  headers : List ℕ
  lastBoundary : ℕ
deriving DecidableEq

/-- Result of one `onWorkReceived` invocation: the updated state, whether
`m_farm.setWork` was called, and whether the new difficulty was computed and
logged. -/
structure WorkRes where
  st : PMState
  didSetWork : Bool
  diffLogged : Bool
deriving DecidableEq

/-- The `while (m_headers.size() > 4) m_headers.pop_front();` loop. -/
def trimHist : List ℕ → List ℕ
  | [] => []
  | x :: xs => if 4 < (x :: xs).length then trimHist xs else x :: xs

/-- The `onWorkReceived` handler (`PoolManager.cpp` lines 58-83): linear scan
of `m_headers` for the incoming header; on a hit, warn and return; on a miss,
append the header, trim the history to 4 entries, then — only if the boundary
differs from `m_lastBoundary` — store the new boundary and log the recomputed
difficulty; finally forward the work to the farm. -/
def onWorkReceived (s : PMState) (header boundary : ℕ) : WorkRes :=
  if header ∈ s.headers then ⟨s, false, false⟩
  else
    let hs := trimHist (s.headers ++ [header])
    if boundary ≠ s.lastBoundary then ⟨⟨hs, boundary⟩, true, true⟩
    else ⟨⟨hs, s.lastBoundary⟩, true, false⟩

/-- Externally visible actions of the `onSolutionFound` handler. -/
inductive SolAct
  | stampSubmitTime
  | logStaleNonce
  | logNonce
  | submitSolution
  | logDiscarded
deriving DecidableEq

/-- The `m_farm.onSolutionFound` handler (`PoolManager.cpp` lines 107-132) as
the sequence of actions it performs, given whether the client is connected and
whether the solution is stale: connected ⇒ stamp `m_submit_time`, log the
nonce, submit; not connected ⇒ log the wasted nonce only. -/
def onSolutionFound (connected stale : Bool) : List SolAct :=
  if connected then
    [.stampSubmitTime, if stale then .logStaleNonce else .logNonce, .submitSolution]
  else
    [.logDiscarded]

/-- Externally visible actions of the control loop, `stop` and `start`.
`setConnection`, `logSelected` and `connect` are tagged with the index of the
active endpoint at the time of the call. -/
inductive Act
  | setConnection (i : ℕ)
  | setPoolAddresses (i : ℕ)
  | logSelected (i : ℕ)
  | connect (i : ℕ)
  | farmStop
  | logRetry (n : ℕ)
  | sleepSec
  | logNoFailover
  | submitHashrate (s : String)
  | sleepTick
  | disconnect
  | setRunningFalse
  | logShutdown
deriving DecidableEq

/-- The PoolManager fields the control loop, `stop` and `start` touch.
`connected`, `pending` and `mining` are the loop's observations of
`p_client->isConnected()`, `p_client->isPendingState()` and
`m_farm.isMining()`; the loop never sets `connected`/`pending` (client
callbacks do), so in a run where every connection attempt fails they are
constant `false`.  `rate` is `m_farm.miningProgress().rate()`. -/
structure LoopState where
  running : Bool
  connected : Bool
  pending : Bool
  mining : Bool
  connectionAttempt : ℕ
  activeConnectionIdx : ℕ
  connections : List String
  maxConnectionAttempts : ℕ
  hashrateReportingTimePassed : ℕ
  hashrateReportingTime : ℕ
  rate : ℕ
deriving DecidableEq

/-- Host of the active endpoint. -/
def hostOf (s : LoopState) : String := s.connections.getD s.activeConnectionIdx ""

/-- The countdown wait of `PoolManager.cpp` lines 203-205:
`for (auto i = 4; --i; this_thread::sleep_for(chrono::seconds(1)))` with a
log in the body — three logs, each followed by a one-second sleep. -/
def graceActions : List Act :=
  [.logRetry 3, .sleepSec, .logRetry 2, .sleepSec, .logRetry 1, .sleepSec]

/-- The grace wait as a function of the running flag.  The parameter lets
theorems state whether the wait depends on the flag; the body, exactly like
the source loop, never consults it. -/
def graceWait (running : Bool) : List Act := graceActions

/-- Lines 189-209 of `workLoop`: if the attempt counter has reached the
threshold, reset it to zero, advance the active index (wrapping to 0 when it
equals the list size), and, if the farm is mining, stop it and perform the
grace wait. -/
def rotateIfNeeded (s : LoopState) : LoopState × List Act :=
  if s.maxConnectionAttempts ≤ s.connectionAttempt then
    let j0 := s.activeConnectionIdx + 1
    let j := if j0 = s.connections.length then 0 else j0
    let m :=
      if s.mining then (({s with mining := false} : LoopState), Act.farmStop :: graceWait s.running)
      else (s, ([] : List Act))
    ({m.1 with connectionAttempt := 0, activeConnectionIdx := j}, m.2)
  else (s, [])

/-- Actions of the dial branch (lines 214-220): set the connection, publish
the pool address, log the selection and call `connect()`. -/
def dialActs (i : ℕ) : List Act :=
  [.setConnection i, .setPoolAddresses i, .logSelected i, .connect i]

/-- Lines 242-256 of `workLoop`: advance the report-pacing counter; once it
exceeds `m_hashrateReportingTime`, encode the farm's rate and submit it, then
reset the counter. -/
def hashratePhase (s : LoopState) : LoopState × List Act :=
  let c := s.hashrateReportingTimePassed + 1
  if s.hashrateReportingTime < c then
    ({s with hashrateReportingTimePassed := 0}, [Act.submitHashrate (encodeHashrate s.rate)])
  else
    ({s with hashrateReportingTimePassed := c}, [])

/-- Hashrate phase followed by the end-of-tick one-second sleep (line 258). -/
def hashrateSleep (s : LoopState) : LoopState × List Act :=
  ((hashratePhase s).1, (hashratePhase s).2 ++ [Act.sleepTick])

/-- One iteration of the `while (m_running)` body of `PoolManager::workLoop`
(lines 179-260).  Pending or connected: only the hashrate phase and the tick
sleep run.  Disconnected: rotate if the attempt threshold was reached; then,
if the active endpoint is not the `"exit"` sentinel, count the attempt and
dial it and fall through to the hashrate phase; otherwise log, stop the farm
if mining, clear the running flag and `continue` (skipping hashrate phase and
sleep). -/
def tick (s : LoopState) : LoopState × List Act :=
  if s.pending then hashrateSleep s
  else if s.connected then hashrateSleep s
  else
    let r := rotateIfNeeded s
    if hostOf r.1 ≠ "exit" then
      let s2 := {r.1 with connectionAttempt := r.1.connectionAttempt + 1}
      let h := hashrateSleep s2
      (h.1, r.2 ++ dialActs r.1.activeConnectionIdx ++ h.2)
    else
      let e :=
        if r.1.mining then (({r.1 with mining := false} : LoopState), [Act.farmStop])
        else (r.1, ([] : List Act))
      ({e.1 with running := false}, r.2 ++ Act.logNoFailover :: e.2)

/-- `n` iterations of the `while (m_running)` loop: each iteration first
checks the running flag, then executes `tick`.  Returns the final state and
the concatenated action trace. -/
def run : ℕ → LoopState → LoopState × List Act
  | 0, s => (s, [])
  | n + 1, s =>
    if s.running then
      ((run n (tick s).1).1, (tick s).2 ++ (run n (tick s).1).2)
    else (s, [])

/-- The endpoint indices dialed in a trace, in order. -/
def connects (l : List Act) : List ℕ :=
  l.filterMap fun a => match a with | .connect i => some i | _ => none

/-- `PoolManager::stop` (lines 154-172): if running, log, clear the running
flag, disconnect the client if connected, then stop the farm if mining. -/
def stop (s : LoopState) : LoopState × List Act :=
  if s.running then
    let s1 := {s with running := false}
    let d := if s.connected then ([Act.disconnect] : List Act) else []
    let m :=
      if s1.mining then (({s1 with mining := false} : LoopState), [Act.farmStop])
      else (s1, ([] : List Act))
    (m.1, Act.logShutdown :: Act.setRunningFalse :: (d ++ m.2))
  else (s, [])

/-- `PoolManager::start` (lines 277-286): if at least one connection is
configured, set the running flag and spawn the work thread; otherwise only
warn.  Returns the new state, whether the thread was spawned, and whether the
warning was logged. -/
def start (s : LoopState) : LoopState × Bool × Bool :=
  if 0 < s.connections.length then ({s with running := true}, true, false)
  else (s, false, true)

lemma diffUnits_sub_two : diffUnits.length - 2 = 4 := rfl

/-- Any fuel of at least `4 - i` gives the same result: the guard
`i < 4` terminates the loop, so the fuel in `diffToDisplay` is not a
truncation. -/
lemma scaleLoop_saturate : ∀ (f : ℕ) (d : ℚ) (i : ℕ), 4 - i ≤ f →
    scaleLoop f d i = scaleLoop (4 - i) d i := by
  intro f
  induction f with
  | zero =>
    intro d i h
    have h0 : 4 - i = 0 := by omega
    rw [h0]
  | succ f ih =>
    intro d i h
    by_cases hc : 1000 < d ∧ i < diffUnits.length - 2
    · have hi : i < 4 := by have := hc.2; rwa [diffUnits_sub_two] at this
      have h4 : 4 - i = (4 - (i + 1)) + 1 := by omega
      have l1 : scaleLoop (f + 1) d i = scaleLoop f (d / 1000) (i + 1) := by
        simp only [scaleLoop]; rw [if_pos hc]
      have l2 : scaleLoop ((4 - (i + 1)) + 1) d i = scaleLoop (4 - (i + 1)) (d / 1000) (i + 1) := by
        simp only [scaleLoop]; rw [if_pos hc]
      rw [l1, h4, l2, ih _ _ (by omega)]
    · have l1 : scaleLoop (f + 1) d i = (d, i) := by
        simp only [scaleLoop]; rw [if_neg hc]
      rcases hm : 4 - i with _ | m
      · rw [l1]; rfl
      · rw [l1]; simp only [scaleLoop]; rw [if_neg hc]

/-- The unit index never exceeds 4, whatever the fuel: `"petahashes"`
(index 5) is unreachable. -/
lemma scaleLoop_idx_le : ∀ (f : ℕ) (d : ℚ) (i : ℕ), i ≤ 4 → (scaleLoop f d i).2 ≤ 4 := by
  intro f
  induction f with
  | zero => intro d i h; exact h
  | succ f ih =>
    intro d i h
    simp only [scaleLoop]
    split
    · next hc => exact ih _ _ (by have := hc.2; rw [diffUnits_sub_two] at this; omega)
    · exact h

lemma padTwo_length : ∀ b : ℕ, b < 100 → (padTwo b).length = 2 := by decide

/-- Claim C3, counterexample: the loop bound in `diffToDisplay` is
`sizeof(k)/sizeof(char*) - 2 = 4`, not 5 scale-ups, so `"petahashes"` is never
reached.  Difficulty 10^16 still exceeds 1000 after the 4 allowed scale-ups
yet renders in terahashes ("10000.00 terahashes"), and difficulty 10^15
renders as "1000.00 terahashes", not with the peta unit as the claim states. -/
theorem diffToDisplay_cx :
    diffToDisplay (10 ^ 16) = "10000.00 terahashes" ∧
    diffToDisplay (10 ^ 15) = "1000.00 terahashes" := by
  constructor
  · norm_num [diffToDisplay, scaleLoop, diffUnits, fixed2, padTwo]
    decide
  · norm_num [diffToDisplay, scaleLoop, diffUnits, fixed2, padTwo]
    decide

/-- Claim C3 (amended): the formatter divides by 1000 while the value exceeds
1000 and fewer than 4 scale-ups have been applied (unit sequence plain, kilo,
mega, giga, tera; the peta entry is unreachable).  The fuel in the embedding
is exact (any fuel ≥ 4 gives the same result), the unit index never exceeds 4,
difficulty 2,500,000 renders "2.50 megahashes", 999 renders "999.00 hashes",
10^15 renders "1000.00 terahashes", and every output consists of an integer
part, exactly two fractional digits, and the selected unit name. -/
theorem diffToDisplay_spec :
    (∀ (f : ℕ) (d : ℚ), 4 ≤ f → scaleLoop f d 0 = scaleLoop 4 d 0) ∧
    (∀ (f : ℕ) (d : ℚ), (scaleLoop f d 0).2 ≤ 4) ∧
    diffToDisplay 2500000 = "2.50 megahashes" ∧
    diffToDisplay 999 = "999.00 hashes" ∧
    diffToDisplay (10 ^ 15) = "1000.00 terahashes" ∧
    (∀ d : ℚ, ∃ a b : ℕ, b < 100 ∧
      diffToDisplay d = toString a ++ "." ++ padTwo b ++ " " ++
        diffUnits.getD (scaleLoop 4 d 0).2 "" ∧
      (padTwo b).length = 2) := by
  refine ⟨?_, ?_, ?_, ?_, ?_, ?_⟩
  · intro f d hf
    simpa using scaleLoop_saturate f d 0 (by omega)
  · intro f d
    exact scaleLoop_idx_le f d 0 (by omega)
  · norm_num [diffToDisplay, scaleLoop, diffUnits, fixed2, padTwo]
    decide
  · norm_num [diffToDisplay, scaleLoop, diffUnits, fixed2, padTwo]
    decide
  · norm_num [diffToDisplay, scaleLoop, diffUnits, fixed2, padTwo]
    decide
  · intro d
    exact ⟨(round ((scaleLoop 4 d 0).1 * 100)).toNat / 100,
      (round ((scaleLoop 4 d 0).1 * 100)).toNat % 100, Nat.mod_lt _ (by norm_num), rfl,
      padTwo_length _ (Nat.mod_lt _ (by norm_num))⟩

lemma hexVal_hexChar : ∀ x : ℕ, x < 16 → hexVal (hexChar x) = x := by decide

lemma toHex_cons (b : ℕ) (bs : List ℕ) :
    toHex (b :: bs) = hexChar (b / 16) :: hexChar (b % 16) :: toHex bs := by
  simp [toHex]

lemma toHex_length (bs : List ℕ) : (toHex bs).length = 2 * bs.length := by
  induction bs with
  | nil => rfl
  | cons b bs ih => rw [toHex_cons]; simp [ih]; omega

lemma foldl_hexVal_toHex (bs : List ℕ) : ∀ a : ℕ, (∀ b ∈ bs, b < 256) →
    (toHex bs).foldl (fun a c => 16 * a + hexVal c) a = bs.foldl (fun a b => 256 * a + b) a := by
  induction bs with
  | nil => intro a _; rfl
  | cons b bs ih =>
    intro a h
    have hb : b < 256 := h b (by simp)
    rw [toHex_cons]
    simp only [List.foldl_cons]
    rw [hexVal_hexChar _ (by omega), hexVal_hexChar _ (by omega)]
    rw [show 16 * (16 * a + b / 16) + b % 16 = 256 * a + b by omega]
    exact ih _ fun x hx => h x (by simp [hx])

lemma beBytesAux_lt (f : ℕ) : ∀ n, n ≤ f → ∀ b ∈ beBytesAux f n, b < 256 := by
  induction f with
  | zero =>
    intro n hn b hb
    have : n = 0 := by omega
    subst this
    simp [beBytesAux] at hb
  | succ f ih =>
    intro n hn b hb
    match n with
    | 0 => simp [beBytesAux] at hb
    | m + 1 =>
      rw [show beBytesAux (f + 1) (m + 1)
          = beBytesAux f ((m + 1) / 256) ++ [(m + 1) % 256] from rfl] at hb
      rcases List.mem_append.1 hb with h1 | h2
      · exact ih _ (by omega) b h1
      · simp at h2; omega

lemma beValue_append_single (l : List ℕ) (m : ℕ) :
    beValue (l ++ [m]) = 256 * beValue l + m := by
  simp [beValue, List.foldl_append]

lemma beValue_beBytesAux (f : ℕ) : ∀ n, n ≤ f → beValue (beBytesAux f n) = n := by
  induction f with
  | zero =>
    intro n hn
    have : n = 0 := by omega
    subst this
    rfl
  | succ f ih =>
    intro n hn
    match n with
    | 0 => rfl
    | m + 1 =>
      rw [show beBytesAux (f + 1) (m + 1)
          = beBytesAux f ((m + 1) / 256) ++ [(m + 1) % 256] from rfl]
      rw [beValue_append_single, ih _ (by omega)]
      omega

lemma beBytesAux_length (f : ℕ) : ∀ n k, n ≤ f → n < 256 ^ k → (beBytesAux f n).length ≤ k := by
  induction f with
  | zero =>
    intro n k hn _
    have : n = 0 := by omega
    subst this
    simp [beBytesAux]
  | succ f ih =>
    intro n k hn hk
    match n with
    | 0 => simp [beBytesAux]
    | m + 1 =>
      match k with
      | 0 => simp at hk
      | k + 1 =>
        rw [show beBytesAux (f + 1) (m + 1)
            = beBytesAux f ((m + 1) / 256) ++ [(m + 1) % 256] from rfl]
        rw [List.length_append]
        have hdiv : (m + 1) / 256 < 256 ^ k := by
          rw [Nat.div_lt_iff_lt_mul (by norm_num)]
          calc m + 1 < 256 ^ (k + 1) := hk
          _ = 256 ^ k * 256 := by ring
        have := ih ((m + 1) / 256) k (by omega) hdiv
        simp
        omega

lemma beValue_toCompact (r : ℕ) : beValue (toCompactBigEndian r) = r := by
  unfold toCompactBigEndian
  split
  · next h => subst h; rfl
  · exact beValue_beBytesAux r r le_rfl

lemma toCompact_lt (r : ℕ) : ∀ b ∈ toCompactBigEndian r, b < 256 := by
  unfold toCompactBigEndian
  split
  · intro b hb; simp at hb; omega
  · exact beBytesAux_lt r r le_rfl

lemma toCompact_length (r k : ℕ) (hk : 1 ≤ k) (h : r < 256 ^ k) :
    (toCompactBigEndian r).length ≤ k := by
  unfold toCompactBigEndian
  split
  · simpa using hk
  · exact beBytesAux_length r r k le_rfl h

lemma toCompact_ne_nil (r : ℕ) : toCompactBigEndian r ≠ [] := by
  unfold toCompactBigEndian
  split
  · simp
  · next h =>
    match r, h with
    | m + 1, _ =>
      rw [show beBytesAux (m + 1) (m + 1)
          = beBytesAux m ((m + 1) / 256) ++ [(m + 1) % 256] from rfl]
      simp

lemma fromHexDigits_cons_zero (l : List Char) : fromHexDigits ('0' :: l) = fromHexDigits l := by
  have h0 : (16 * 0 + hexVal '0') = 0 := by decide
  simp only [fromHexDigits, List.foldl_cons, h0]

lemma fromHexDigits_replicate_zero (k : ℕ) (l : List Char) :
    fromHexDigits (List.replicate k '0' ++ l) = fromHexDigits l := by
  induction k with
  | zero => simp
  | succ k ih => rw [List.replicate_succ, List.cons_append, fromHexDigits_cons_zero, ih]

lemma padded_spec (res : List Char) (hlen : res.length ≤ 64) :
    (String.mk ('0' :: 'x' :: (List.replicate (64 - res.length) '0' ++ res))).length = 66 ∧
    (String.mk ('0' :: 'x' :: (List.replicate (64 - res.length) '0' ++ res))).toList.take 2
      = ['0', 'x'] ∧
    ((String.mk ('0' :: 'x' :: (List.replicate (64 - res.length) '0' ++ res))).toList.drop 2).length
      = 64 ∧
    fromHexDigits
        ((String.mk ('0' :: 'x' :: (List.replicate (64 - res.length) '0' ++ res))).toList.drop 2)
      = fromHexDigits res := by
  refine ⟨?_, rfl, ?_, ?_⟩
  · show ('0' :: 'x' :: (List.replicate (64 - res.length) '0' ++ res)).length = 66
    simp
    omega
  · show ((List.replicate (64 - res.length) '0' ++ res)).length = 64
    simp
    omega
  · show fromHexDigits (List.replicate (64 - res.length) '0' ++ res) = fromHexDigits res
    exact fromHexDigits_replicate_zero _ _

lemma fromHexDigits_toHex_toCompact (r : ℕ) :
    fromHexDigits (toHex (toCompactBigEndian r)) = r := by
  unfold fromHexDigits
  rw [foldl_hexVal_toHex _ _ (toCompact_lt r)]
  exact beValue_toCompact r

lemma toHex_toCompact_length_le (r : ℕ) (hr : r < 2 ^ 64) :
    (toHex (toCompactBigEndian r)).length ≤ 16 := by
  rw [toHex_length]
  have h8 : (toCompactBigEndian r).length ≤ 8 := by
    refine toCompact_length r 8 (by norm_num) ?_
    have : (256 : ℕ) ^ 8 = 2 ^ 64 := by norm_num
    omega
  omega

/-- Claim C5: the hashrate encoder takes the rate's minimal big-endian byte
encoding in lowercase hex, strips at most one leading '0' nibble, left-pads
with '0' to exactly 64 hex characters and prefixes "0x": for every rate below
2^64 (the width of the farm's rate counter) the output is 66 characters, the
first two are "0x", the remaining 64 decode back to the rate; rate 0 encodes
to "0x" followed by 64 zeros and rate 1 to "0x", 63 zeros and "1". -/
theorem encodeHashrate_spec (r : ℕ) (hr : r < 2 ^ 64) :
    (encodeHashrate r).length = 66 ∧
    (encodeHashrate r).toList.take 2 = ['0', 'x'] ∧
    ((encodeHashrate r).toList.drop 2).length = 64 ∧
    fromHexDigits ((encodeHashrate r).toList.drop 2) = r ∧
    encodeHashrate 0 = String.mk ('0' :: 'x' :: List.replicate 64 '0') ∧
    encodeHashrate 1 = String.mk ('0' :: 'x' :: (List.replicate 63 '0' ++ ['1'])) := by
  have hex0 : encodeHashrate 0 = String.mk ('0' :: 'x' :: List.replicate 64 '0') := by decide
  have hex1 : encodeHashrate 1 = String.mk ('0' :: 'x' :: (List.replicate 63 '0' ++ ['1'])) := by
    decide
  have hh16 := toHex_toCompact_length_le r hr
  have hhval := fromHexDigits_toHex_toCompact r
  by_cases hc : (toHex (toCompactBigEndian r)).headD '0' ≠ '0'
  · have he : encodeHashrate r = String.mk ('0' :: 'x' ::
        (List.replicate (64 - (toHex (toCompactBigEndian r)).length) '0'
          ++ toHex (toCompactBigEndian r))) := by
      simp only [encodeHashrate]
      rw [if_pos hc]
    rw [he]
    obtain ⟨p1, p2, p3, p4⟩ := padded_spec (toHex (toCompactBigEndian r)) (by omega)
    exact ⟨p1, p2, p3, by rw [p4]; exact hhval, hex0, hex1⟩
  · push_neg at hc
    rcases hl : toHex (toCompactBigEndian r) with _ | ⟨c, t⟩
    · exfalso
      rcases hx : toCompactBigEndian r with _ | ⟨b, bs⟩
      · exact toCompact_ne_nil r hx
      · rw [hx, toHex_cons] at hl
        simp at hl
    · have hc0 : c = '0' := by
        rw [hl] at hc
        simpa using hc
      subst hc0
      have htval : fromHexDigits t = r := by
        rw [hl, fromHexDigits_cons_zero] at hhval
        exact hhval
      have he : encodeHashrate r = String.mk ('0' :: 'x' ::
          (List.replicate (64 - t.length) '0' ++ t)) := by
        simp only [encodeHashrate]
        rw [hl]
        simp
      rw [he]
      have htlen : t.length ≤ 64 := by
        rw [hl] at hh16
        simp at hh16
        omega
      obtain ⟨p1, p2, p3, p4⟩ := padded_spec t htlen
      exact ⟨p1, p2, p3, by rw [p4]; exact htval, hex0, hex1⟩

/-- Witness for C5's theorem at rate 300 (two bytes, `"012c"` stripped to
`"12c"`). -/
theorem encodeHashrate_spec_witness :
    (300 : ℕ) < 2 ^ 64 ∧
    ((encodeHashrate 300).length = 66 ∧
     (encodeHashrate 300).toList.take 2 = ['0', 'x'] ∧
     ((encodeHashrate 300).toList.drop 2).length = 64 ∧
     fromHexDigits ((encodeHashrate 300).toList.drop 2) = 300 ∧
     encodeHashrate 0 = String.mk ('0' :: 'x' :: List.replicate 64 '0') ∧
     encodeHashrate 1 = String.mk ('0' :: 'x' :: (List.replicate 63 '0' ++ ['1']))) :=
  ⟨by norm_num, encodeHashrate_spec 300 (by norm_num)⟩

lemma mem_trimHist_append (l : List ℕ) (x : ℕ) : x ∈ trimHist (l ++ [x]) := by
  induction l with
  | nil => simp [trimHist]
  | cons y l ih =>
    rw [List.cons_append]
    simp only [trimHist]
    split
    · exact ih
    · simp

lemma trimHist_length (l : List ℕ) : (trimHist l).length = min l.length 4 := by
  induction l with
  | nil => simp [trimHist]
  | cons x l ih =>
    simp only [trimHist]
    split
    · next h =>
      rw [ih]
      simp at h ⊢
      omega
    · next h =>
      simp at h ⊢
      omega

lemma mem_onWork_st (s : PMState) (hd bd : ℕ) : hd ∈ (onWorkReceived s hd bd).st.headers := by
  unfold onWorkReceived
  split
  · next h => exact h
  · split
    · exact mem_trimHist_append _ _
    · exact mem_trimHist_append _ _

lemma onWork_dup (s : PMState) (hd b1 b2 : ℕ) :
    (onWorkReceived (onWorkReceived s hd b1).st hd b2).didSetWork = false := by
  have hm := mem_onWork_st s hd b1
  unfold onWorkReceived
  rw [if_pos]
  exact hm

lemma onWork_len (s : PMState) (hd bd : ℕ) (h : s.headers.length ≤ 4) :
    (onWorkReceived s hd bd).st.headers.length ≤ 4 := by
  unfold onWorkReceived
  split
  · exact h
  · have ht := trimHist_length (s.headers ++ [hd])
    split
    · simp only [ht]
      omega
    · simp only [ht]
      omega

/-- Claim C4: the job-identifier history is membership-tested first and
inserted only on a miss: a repeated identifier never triggers a second
`setWork`; four distinct identifiers all reach the engine and are all
retained (in arrival order); a fifth distinct identifier still reaches the
engine and evicts the oldest of the previous four; and the history never
grows beyond 4 entries. -/
theorem onWork_dedup (a b c d e w : ℕ)
    (hab : a ≠ b) (hac : a ≠ c) (had : a ≠ d) (hae : a ≠ e)
    (hbc : b ≠ c) (hbd : b ≠ d) (hbe : b ≠ e)
    (hcd : c ≠ d) (hce : c ≠ e) (hde : d ≠ e) :
    (∀ (s : PMState) (hd b1 b2 : ℕ),
      (onWorkReceived (onWorkReceived s hd b1).st hd b2).didSetWork = false) ∧
    ((onWorkReceived ⟨[], w⟩ a w).didSetWork = true ∧
     (onWorkReceived (onWorkReceived ⟨[], w⟩ a w).st b w).didSetWork = true ∧
     (onWorkReceived ⟨[a, b], w⟩ c w).didSetWork = true ∧
     (onWorkReceived ⟨[a, b, c], w⟩ d w).didSetWork = true ∧
     (onWorkReceived ⟨[a, b, c], w⟩ d w).st.headers = [a, b, c, d] ∧
     (onWorkReceived ⟨[a, b, c, d], w⟩ e w).didSetWork = true ∧
     (onWorkReceived ⟨[a, b, c, d], w⟩ e w).st.headers = [b, c, d, e]) ∧
    (∀ (s : PMState) (hd bd : ℕ), s.headers.length ≤ 4 →
      (onWorkReceived s hd bd).st.headers.length ≤ 4) := by
  refine ⟨onWork_dup, ?_, fun s hd bd h => onWork_len s hd bd h⟩
  have e1 : onWorkReceived ⟨[], w⟩ a w = ⟨⟨[a], w⟩, true, false⟩ := by
    simp [onWorkReceived, trimHist]
  have e2 : onWorkReceived ⟨[a], w⟩ b w = ⟨⟨[a, b], w⟩, true, false⟩ := by
    simp [onWorkReceived, trimHist, Ne.symm hab]
  have e4 : onWorkReceived ⟨[a, b, c], w⟩ d w = ⟨⟨[a, b, c, d], w⟩, true, false⟩ := by
    simp [onWorkReceived, trimHist, Ne.symm had, Ne.symm hbd, Ne.symm hcd]
  have e5 : onWorkReceived ⟨[a, b, c, d], w⟩ e w = ⟨⟨[b, c, d, e], w⟩, true, false⟩ := by
    simp [onWorkReceived, trimHist, Ne.symm hae, Ne.symm hbe, Ne.symm hce, Ne.symm hde]
  refine ⟨by rw [e1], by rw [e1]; rw [e2], ?_, by rw [e4], by rw [e4], by rw [e5], by rw [e5]⟩
  simp [onWorkReceived, trimHist, Ne.symm hac, Ne.symm hbc]

/-- Witness for C4's theorem at identifiers 1,2,3,4,5 and boundary 0. -/
theorem onWork_dedup_witness :
    ((1 : ℕ) ≠ 2 ∧ (4 : ℕ) ≠ 5) ∧
    ((∀ (s : PMState) (hd b1 b2 : ℕ),
      (onWorkReceived (onWorkReceived s hd b1).st hd b2).didSetWork = false) ∧
    ((onWorkReceived ⟨[], 0⟩ 1 0).didSetWork = true ∧
     (onWorkReceived (onWorkReceived ⟨[], 0⟩ 1 0).st 2 0).didSetWork = true ∧
     (onWorkReceived ⟨[1, 2], 0⟩ 3 0).didSetWork = true ∧
     (onWorkReceived ⟨[1, 2, 3], 0⟩ 4 0).didSetWork = true ∧
     (onWorkReceived ⟨[1, 2, 3], 0⟩ 4 0).st.headers = [1, 2, 3, 4] ∧
     (onWorkReceived ⟨[1, 2, 3, 4], 0⟩ 5 0).didSetWork = true ∧
     (onWorkReceived ⟨[1, 2, 3, 4], 0⟩ 5 0).st.headers = [2, 3, 4, 5]) ∧
    (∀ (s : PMState) (hd bd : ℕ), s.headers.length ≤ 4 →
      (onWorkReceived s hd bd).st.headers.length ≤ 4)) :=
  ⟨⟨by decide, by decide⟩,
    onWork_dedup 1 2 3 4 5 0 (by decide) (by decide) (by decide) (by decide) (by decide)
      (by decide) (by decide) (by decide) (by decide) (by decide)⟩

/-- Claim C7: on a non-duplicate work notification, the difficulty is
recomputed and logged, and the stored boundary updated, exactly when the
incoming boundary differs from the previously seen one; on an equal boundary
nothing is logged and the stored boundary is unchanged. -/
theorem onWork_boundary (s : PMState) (hd bd : ℕ) (hmem : hd ∉ s.headers) :
    (bd = s.lastBoundary →
      (onWorkReceived s hd bd).diffLogged = false ∧
      (onWorkReceived s hd bd).st.lastBoundary = s.lastBoundary) ∧
    (bd ≠ s.lastBoundary →
      (onWorkReceived s hd bd).diffLogged = true ∧
      (onWorkReceived s hd bd).st.lastBoundary = bd) ∧
    ((onWorkReceived s hd bd).diffLogged = true ↔ bd ≠ s.lastBoundary) := by
  unfold onWorkReceived
  rw [if_neg hmem]
  by_cases h : bd = s.lastBoundary <;> simp [h]

/-- Witness for C7's theorem: header 9 against an empty history, boundary 7
with stored boundary 7 (unchanged case) — the equal-boundary implication and
the iff are exercised. -/
theorem onWork_boundary_witness :
    ((9 : ℕ) ∉ (⟨[], 7⟩ : PMState).headers) ∧
    (((7 : ℕ) = (⟨[], 7⟩ : PMState).lastBoundary →
      (onWorkReceived ⟨[], 7⟩ 9 7).diffLogged = false ∧
      (onWorkReceived ⟨[], 7⟩ 9 7).st.lastBoundary = (⟨[], 7⟩ : PMState).lastBoundary) ∧
    ((7 : ℕ) ≠ (⟨[], 7⟩ : PMState).lastBoundary →
      (onWorkReceived ⟨[], 7⟩ 9 7).diffLogged = true ∧
      (onWorkReceived ⟨[], 7⟩ 9 7).st.lastBoundary = 7) ∧
    ((onWorkReceived ⟨[], 7⟩ 9 7).diffLogged = true ↔ (7 : ℕ) ≠ (⟨[], 7⟩ : PMState).lastBoundary)) :=
  ⟨by decide, onWork_boundary ⟨[], 7⟩ 9 7 (by decide)⟩

/-- Claim C6: when the engine reports a solution while the client is
connected, the handler stamps the submission timestamp, logs the nonce
(stale or fresh) and forwards it to `submitSolution`, in that order; while
disconnected it performs exactly one discard log and nothing else — in
particular `submitSolution` is never called and nothing is retried or
buffered. -/
theorem onSolutionFound_spec :
    onSolutionFound true false = [.stampSubmitTime, .logNonce, .submitSolution] ∧
    onSolutionFound true true = [.stampSubmitTime, .logStaleNonce, .submitSolution] ∧
    onSolutionFound false false = [.logDiscarded] ∧
    onSolutionFound false true = [.logDiscarded] ∧
    (∀ st : Bool, SolAct.submitSolution ∉ onSolutionFound false st) := by
  refine ⟨rfl, rfl, rfl, rfl, ?_⟩
  intro st
  simp [onSolutionFound]

lemma run_halt (n : ℕ) (s : LoopState) (h : s.running = false) : run n s = (s, []) := by
  cases n <;> simp [run, h]

lemma connects_append (l1 l2 : List Act) : connects (l1 ++ l2) = connects l1 ++ connects l2 := by
  simp [connects]

lemma connects_dialActs (i : ℕ) : connects (dialActs i) = [i] := rfl

lemma connects_graceActions : connects graceActions = [] := rfl

lemma connects_rotate (s : LoopState) : connects (rotateIfNeeded s).2 = [] := by
  unfold rotateIfNeeded
  split
  · split <;> rfl
  · rfl

lemma hashrateSleep_fields (s : LoopState) :
    (hashrateSleep s).1.running = s.running ∧
    (hashrateSleep s).1.connected = s.connected ∧
    (hashrateSleep s).1.pending = s.pending ∧
    (hashrateSleep s).1.mining = s.mining ∧
    (hashrateSleep s).1.connectionAttempt = s.connectionAttempt ∧
    (hashrateSleep s).1.activeConnectionIdx = s.activeConnectionIdx ∧
    (hashrateSleep s).1.connections = s.connections ∧
    (hashrateSleep s).1.maxConnectionAttempts = s.maxConnectionAttempts ∧
    connects (hashrateSleep s).2 = [] := by
  by_cases hc : s.hashrateReportingTime < s.hashrateReportingTimePassed + 1 <;>
    simp [hashrateSleep, hashratePhase, hc, connects]

lemma rotateIfNeeded_skip (s : LoopState) (h : s.connectionAttempt < s.maxConnectionAttempts) :
    rotateIfNeeded s = (s, []) := by
  unfold rotateIfNeeded
  rw [if_neg (by omega)]

lemma tick_dial (s : LoopState) (hp : s.pending = false) (hc : s.connected = false)
    (hlt : s.connectionAttempt < s.maxConnectionAttempts)
    (hhost : hostOf s ≠ "exit") :
    tick s = ((hashrateSleep {s with connectionAttempt := s.connectionAttempt + 1}).1,
      dialActs s.activeConnectionIdx
        ++ (hashrateSleep {s with connectionAttempt := s.connectionAttempt + 1}).2) := by
  unfold tick
  rw [rotateIfNeeded_skip s hlt]
  simp [hp, hc, hhost]

/-- While the attempt counter stays below the threshold, each tick of the
loop dials the active endpoint once: `k` ticks produce exactly `k` connect
calls to the active index, advance the counter by `k`, and leave the index,
the endpoint list, the threshold, the mining state and the client
observations unchanged. -/
lemma run_dial_phase (k : ℕ) : ∀ s : LoopState, s.running = true → s.pending = false →
    s.connected = false → s.connectionAttempt + k ≤ s.maxConnectionAttempts →
    hostOf s ≠ "exit" →
    connects (run k s).2 = List.replicate k s.activeConnectionIdx ∧
    (run k s).1.running = true ∧
    (run k s).1.pending = false ∧
    (run k s).1.connected = false ∧
    (run k s).1.connectionAttempt = s.connectionAttempt + k ∧
    (run k s).1.activeConnectionIdx = s.activeConnectionIdx ∧
    (run k s).1.connections = s.connections ∧
    (run k s).1.maxConnectionAttempts = s.maxConnectionAttempts ∧
    (run k s).1.mining = s.mining := by
  induction k with
  | zero =>
    intro s h1 h2 h3 h4 h5
    simp [run, connects, h1, h2, h3]
  | succ k ih =>
    intro s h1 h2 h3 h4 h5
    have hlt : s.connectionAttempt < s.maxConnectionAttempts := by omega
    have htick := tick_dial s h2 h3 hlt h5
    obtain ⟨f1, f2, f3, f4, f5, f6, f7, f8, f9⟩ :=
      hashrateSleep_fields {s with connectionAttempt := s.connectionAttempt + 1}
    have ht1 : (tick s).1
        = (hashrateSleep {s with connectionAttempt := s.connectionAttempt + 1}).1 := by
      rw [htick]
    have ht2 : (tick s).2 = dialActs s.activeConnectionIdx
        ++ (hashrateSleep {s with connectionAttempt := s.connectionAttempt + 1}).2 := by
      rw [htick]
    have hrun1 : run (k + 1) s
        = ((run k (tick s).1).1, (tick s).2 ++ (run k (tick s).1).2) := by
      rw [run, if_pos h1]
    have hhost' : hostOf (tick s).1 ≠ "exit" := by
      unfold hostOf
      rw [ht1, f6, f7]
      exact h5
    have ihs := ih (tick s).1 (by rw [ht1]; exact f1.trans h1) (by rw [ht1]; exact f3.trans h2)
      (by rw [ht1]; exact f2.trans h3) (by rw [ht1, f5, f8]; simp; omega) hhost'
    obtain ⟨g1, g2, g3, g4, g5, g6, g7, g8, g9⟩ := ihs
    rw [hrun1]
    refine ⟨?_, g2, g3, g4, ?_, ?_, ?_, ?_, ?_⟩
    · rw [connects_append, g1, ht2, connects_append, connects_dialActs, f9, ht1, f6]
      simp [List.replicate_succ]
    · rw [g5, ht1, f5]
      simp
      omega
    · rw [g6, ht1, f6]
    · rw [g7, ht1, f7]
    · rw [g8, ht1, f8]
    · rw [g9, ht1, f4]

lemma rotateIfNeeded_fire (s : LoopState) (h : s.maxConnectionAttempts ≤ s.connectionAttempt) :
    (rotateIfNeeded s).1.connectionAttempt = 0 ∧
    (rotateIfNeeded s).1.activeConnectionIdx =
      (if s.activeConnectionIdx + 1 = s.connections.length then 0
       else s.activeConnectionIdx + 1) := by
  unfold rotateIfNeeded
  rw [if_pos h]
  constructor
  · simp
  · split <;> simp

lemma wrap_eq_mod (i N : ℕ) (h : i < N) :
    (if i + 1 = N then 0 else i + 1) = (i + 1) % N := by
  by_cases h1 : i + 1 = N
  · rw [if_pos h1, h1, Nat.mod_self]
  · rw [if_neg h1, Nat.mod_eq_of_lt (by omega)]

/-- Claim C1: with threshold A ≥ 1, all connection attempts failing, and the
active endpoint not the sentinel, the loop issues exactly A connect calls on
the active endpoint (index `i`) with no rotation during them; the following
tick's rotation resets the attempt counter to zero and advances the index to
`(i+1) mod N` — endpoints are visited in insertion order, wrapping after the
last; and on any state whose counter has reached the threshold, rotation
resets the counter to zero. -/
theorem failover_attempts (A N i : ℕ) (s : LoopState)
    (hA : 1 ≤ A) (hrun : s.running = true) (hconn : s.connected = false)
    (hpend : s.pending = false) (hmax : s.maxConnectionAttempts = A)
    (hatt : s.connectionAttempt = 0) (hidx : s.activeConnectionIdx = i)
    (hN : s.connections.length = N) (hiN : i < N)
    (hhost : hostOf s ≠ "exit") :
    connects (run A s).2 = List.replicate A i ∧
    (run A s).1.activeConnectionIdx = i ∧
    (run A s).1.connectionAttempt = A ∧
    (rotateIfNeeded (run A s).1).1.connectionAttempt = 0 ∧
    (rotateIfNeeded (run A s).1).1.activeConnectionIdx = (i + 1) % N ∧
    (∀ t : LoopState, t.maxConnectionAttempts ≤ t.connectionAttempt →
      (rotateIfNeeded t).1.connectionAttempt = 0) := by
  obtain ⟨g1, g2, g3, g4, g5, g6, g7, g8, g9⟩ :=
    run_dial_phase A s hrun hpend hconn (by omega) hhost
  have hthr : (run A s).1.maxConnectionAttempts ≤ (run A s).1.connectionAttempt := by
    rw [g8, g5, hmax, hatt]
    omega
  obtain ⟨r1, r2⟩ := rotateIfNeeded_fire _ hthr
  refine ⟨by rw [g1, hidx], by rw [g6, hidx], by rw [g5, hatt]; omega, r1, ?_,
    fun t ht => (rotateIfNeeded_fire t ht).1⟩
  rw [r2, g6, g7, hidx, hN]
  exact wrap_eq_mod i N hiN

/-- Witness for C1's theorem: threshold 2, endpoints `["a", "b", "exit"]`,
starting at index 0 with counter 0. -/
theorem failover_attempts_witness :
    ((1 : ℕ) ≤ 2 ∧ (0 : ℕ) < 3 ∧
      hostOf ⟨true, false, false, false, 0, 0, ["a", "b", "exit"], 2, 0, 1000, 0⟩ ≠ "exit") ∧
    (connects (run 2 ⟨true, false, false, false, 0, 0, ["a", "b", "exit"], 2, 0, 1000, 0⟩).2
        = List.replicate 2 0 ∧
     (run 2 ⟨true, false, false, false, 0, 0, ["a", "b", "exit"], 2, 0, 1000, 0⟩).1.activeConnectionIdx
        = 0 ∧
     (run 2 ⟨true, false, false, false, 0, 0, ["a", "b", "exit"], 2, 0, 1000, 0⟩).1.connectionAttempt
        = 2 ∧
     (rotateIfNeeded
        (run 2 ⟨true, false, false, false, 0, 0, ["a", "b", "exit"], 2, 0, 1000, 0⟩).1).1.connectionAttempt
        = 0 ∧
     (rotateIfNeeded
        (run 2 ⟨true, false, false, false, 0, 0, ["a", "b", "exit"], 2, 0, 1000, 0⟩).1).1.activeConnectionIdx
        = (0 + 1) % 3 ∧
     (∀ t : LoopState, t.maxConnectionAttempts ≤ t.connectionAttempt →
        (rotateIfNeeded t).1.connectionAttempt = 0)) :=
  ⟨⟨by decide, by decide, by decide⟩,
    failover_attempts 2 3 0 ⟨true, false, false, false, 0, 0, ["a", "b", "exit"], 2, 0, 1000, 0⟩
      (by decide) rfl rfl rfl rfl rfl rfl rfl (by decide) (by decide)⟩

/-- Claim C2: when the active endpoint after the rotation step is the
`"exit"` sentinel, the tick makes no connect call, stops the farm if it was
mining, clears the running flag, logs "no more failover", and the loop makes
no further progress from the resulting state. -/
theorem sentinel_never_dialed (s : LoopState) (hrun : s.running = true)
    (hconn : s.connected = false) (hpend : s.pending = false)
    (hhost : hostOf (rotateIfNeeded s).1 = "exit") :
    connects (tick s).2 = [] ∧
    (tick s).1.running = false ∧
    (tick s).1.mining = false ∧
    (s.mining = true → Act.farmStop ∈ (tick s).2) ∧
    Act.logNoFailover ∈ (tick s).2 ∧
    (∀ n, run n (tick s).1 = ((tick s).1, [])) := by
  have hrunf : (tick s).1.running = false := by
    unfold tick
    simp [hpend, hconn, hhost]
  have hacts : (tick s).2 = (rotateIfNeeded s).2 ++ Act.logNoFailover ::
      (if (rotateIfNeeded s).1.mining = true then [Act.farmStop] else []) := by
    unfold tick
    by_cases hm1 : (rotateIfNeeded s).1.mining = true <;> simp [hpend, hconn, hhost, hm1]
  refine ⟨?_, hrunf, ?_, ?_, ?_, fun n => run_halt n _ hrunf⟩
  · rw [hacts, connects_append, connects_rotate]
    by_cases hm1 : (rotateIfNeeded s).1.mining = true <;> simp [hm1, connects]
  · unfold tick
    by_cases hm1 : (rotateIfNeeded s).1.mining = true <;>
      simp [hpend, hconn, hhost, hm1]
  · intro hsm
    rw [hacts]
    by_cases hthr : s.maxConnectionAttempts ≤ s.connectionAttempt
    · have hmem : Act.farmStop ∈ (rotateIfNeeded s).2 := by
        unfold rotateIfNeeded
        rw [if_pos hthr]
        simp [hsm]
      exact List.mem_append.2 (Or.inl hmem)
    · have hr : rotateIfNeeded s = (s, []) := rotateIfNeeded_skip s (by omega)
      rw [hr]
      simp [hr, hsm]
  · rw [hacts]
    simp

/-- Witness for C2's theorem: a single-endpoint list whose only entry is the
sentinel, while mining, with the attempt counter below the threshold. -/
theorem sentinel_never_dialed_witness :
    (hostOf (rotateIfNeeded ⟨true, false, false, true, 0, 0, ["exit"], 3, 0, 1000, 0⟩).1
      = "exit") ∧
    (connects (tick ⟨true, false, false, true, 0, 0, ["exit"], 3, 0, 1000, 0⟩).2 = [] ∧
     (tick ⟨true, false, false, true, 0, 0, ["exit"], 3, 0, 1000, 0⟩).1.running = false ∧
     (tick ⟨true, false, false, true, 0, 0, ["exit"], 3, 0, 1000, 0⟩).1.mining = false ∧
     ((⟨true, false, false, true, 0, 0, ["exit"], 3, 0, 1000, 0⟩ : LoopState).mining = true →
       Act.farmStop ∈ (tick ⟨true, false, false, true, 0, 0, ["exit"], 3, 0, 1000, 0⟩).2) ∧
     Act.logNoFailover ∈ (tick ⟨true, false, false, true, 0, 0, ["exit"], 3, 0, 1000, 0⟩).2 ∧
     (∀ n, run n (tick ⟨true, false, false, true, 0, 0, ["exit"], 3, 0, 1000, 0⟩).1
        = ((tick ⟨true, false, false, true, 0, 0, ["exit"], 3, 0, 1000, 0⟩).1, []))) :=
  ⟨by decide,
    sentinel_never_dialed ⟨true, false, false, true, 0, 0, ["exit"], 3, 0, 1000, 0⟩
      rfl rfl rfl (by decide)⟩

/-- Claim C8: `stop()` on a running orchestrator clears the running flag —
after which the loop makes no further progress — then disconnects the client
if connected and stops the engine if mining, in that order (disconnect
strictly before engine stop when both occur). -/
theorem stop_shutdown (s : LoopState) (h : s.running = true) :
    (stop s).1.running = false ∧
    (s.connected = true → Act.disconnect ∈ (stop s).2) ∧
    (s.mining = true → Act.farmStop ∈ (stop s).2) ∧
    (s.connected = true → s.mining = true →
      (stop s).2 = [Act.logShutdown, Act.setRunningFalse, Act.disconnect, Act.farmStop]) ∧
    (∀ n, run n (stop s).1 = ((stop s).1, [])) := by
  have hrunf : (stop s).1.running = false := by
    unfold stop
    rw [if_pos h]
    by_cases hm : s.mining = true <;> simp [hm]
  refine ⟨hrunf, ?_, ?_, ?_, fun n => run_halt n _ hrunf⟩
  · intro hc
    unfold stop
    rw [if_pos h]
    by_cases hm : s.mining = true <;> simp [hc, hm]
  · intro hm
    unfold stop
    rw [if_pos h]
    by_cases hc : s.connected = true <;> simp [hc, hm]
  · intro hc hm
    unfold stop
    rw [if_pos h]
    simp [hc, hm]

/-- Witness for C8's theorem: running, connected and mining all true. -/
theorem stop_shutdown_witness :
    ((⟨true, true, false, true, 0, 0, ["a"], 1, 0, 1000, 0⟩ : LoopState).running = true) ∧
    ((stop ⟨true, true, false, true, 0, 0, ["a"], 1, 0, 1000, 0⟩).1.running = false ∧
     ((⟨true, true, false, true, 0, 0, ["a"], 1, 0, 1000, 0⟩ : LoopState).connected = true →
       Act.disconnect ∈ (stop ⟨true, true, false, true, 0, 0, ["a"], 1, 0, 1000, 0⟩).2) ∧
     ((⟨true, true, false, true, 0, 0, ["a"], 1, 0, 1000, 0⟩ : LoopState).mining = true →
       Act.farmStop ∈ (stop ⟨true, true, false, true, 0, 0, ["a"], 1, 0, 1000, 0⟩).2) ∧
     ((⟨true, true, false, true, 0, 0, ["a"], 1, 0, 1000, 0⟩ : LoopState).connected = true →
       (⟨true, true, false, true, 0, 0, ["a"], 1, 0, 1000, 0⟩ : LoopState).mining = true →
       (stop ⟨true, true, false, true, 0, 0, ["a"], 1, 0, 1000, 0⟩).2
         = [Act.logShutdown, Act.setRunningFalse, Act.disconnect, Act.farmStop]) ∧
     (∀ n, run n (stop ⟨true, true, false, true, 0, 0, ["a"], 1, 0, 1000, 0⟩).1
        = ((stop ⟨true, true, false, true, 0, 0, ["a"], 1, 0, 1000, 0⟩).1, []))) :=
  ⟨rfl, stop_shutdown ⟨true, true, false, true, 0, 0, ["a"], 1, 0, 1000, 0⟩ rfl⟩

/-- Recogniser for the one-second sleeps of the grace wait. -/
def isSleep : Act → Bool
  | .sleepSec => true
  | _ => false

/-- Claim C9, counterexample: the grace wait performs its three one-second
sleeps regardless of the running flag — the `for (auto i = 4; --i; sleep)`
loop never reads `m_running`, so the wait is not interruptible and clearing
the flag can be delayed by the full grace period. -/
theorem grace_not_interruptible_cx :
    graceWait false = graceWait true ∧
    graceWait false = graceActions ∧
    ((graceWait false).filter isSleep).length = 3 := by decide

/-- Claim C9 (amended): the grace wait during failover is the fixed sequence
"Retrying in 3" log, 1 s sleep, "Retrying in 2" log, 1 s sleep, "Retrying in
1" log, 1 s sleep; it is the same whatever the value of the running flag (it
never consults it), makes no connect call, and contains exactly three
sub-interval sleeps. -/
theorem grace_fixed_wait :
    graceWait true = [Act.logRetry 3, Act.sleepSec, Act.logRetry 2, Act.sleepSec,
      Act.logRetry 1, Act.sleepSec] ∧
    graceWait false = graceWait true ∧
    ((graceWait true).filter isSleep).length = 3 ∧
    connects (graceWait false) = [] := by decide

/-- Claim C10: `start()` with no configured endpoint leaves the state
unchanged, spawns no work thread and only warns — hence the running flag
stays false and the loop never runs — and the thread is spawned only when at
least one endpoint was added beforehand. -/
theorem start_empty_noop (s : LoopState) (h : s.connections = []) (hrun : s.running = false) :
    (start s).1 = s ∧
    (start s).2.1 = false ∧
    (start s).2.2 = true ∧
    (start s).1.running = false ∧
    (∀ n, run n (start s).1 = (s, [])) ∧
    (∀ t : LoopState, (start t).2.1 = true → t.connections ≠ []) := by
  have he : start s = (s, false, true) := by
    unfold start
    rw [if_neg (by simp [h])]
  refine ⟨by rw [he], by rw [he], by rw [he], by rw [he]; exact hrun, ?_, ?_⟩
  · intro n
    rw [he]
    exact run_halt n s hrun
  · intro t ht hnil
    unfold start at ht
    rw [if_neg (by simp [hnil])] at ht
    simp at ht

/-- Witness for C10's theorem: empty endpoint list, not running. -/
theorem start_empty_noop_witness :
    ((⟨false, false, false, false, 0, 0, [], 1, 0, 1000, 0⟩ : LoopState).connections = [] ∧
     (⟨false, false, false, false, 0, 0, [], 1, 0, 1000, 0⟩ : LoopState).running = false) ∧
    ((start ⟨false, false, false, false, 0, 0, [], 1, 0, 1000, 0⟩).1
        = ⟨false, false, false, false, 0, 0, [], 1, 0, 1000, 0⟩ ∧
     (start ⟨false, false, false, false, 0, 0, [], 1, 0, 1000, 0⟩).2.1 = false ∧
     (start ⟨false, false, false, false, 0, 0, [], 1, 0, 1000, 0⟩).2.2 = true ∧
     (start ⟨false, false, false, false, 0, 0, [], 1, 0, 1000, 0⟩).1.running = false ∧
     (∀ n, run n (start ⟨false, false, false, false, 0, 0, [], 1, 0, 1000, 0⟩).1
        = (⟨false, false, false, false, 0, 0, [], 1, 0, 1000, 0⟩, [])) ∧
     (∀ t : LoopState, (start t).2.1 = true → t.connections ≠ [])) :=
  ⟨⟨rfl, rfl⟩, start_empty_noop ⟨false, false, false, false, 0, 0, [], 1, 0, 1000, 0⟩ rfl rfl⟩
